import Mathlib

/-!
Shallow embedding of `src/graphics/RGBAImage.h` (X-Lives/X-minorGems).

The C++ unit converts between a packed interleaved 8-bit byte buffer and a
channel-array image whose samples are doubles.  Samples are modelled as exact
rationals (`ℚ`); bytes as naturals.  The base `Image` container (`Image.h`) is
not part of the sources; the few container operations the claims depend on
(zero-initializing constructor, per-channel filter) are modelled from the spec
and marked as such.
-/

/-- A channel-array image: width, height, and one sample buffer per channel
(`mChannels` in the C++).  Channel count is the length of `channels`. -/
structure Image where
  width : Nat
  height : Nat
  channels : List (List ℚ)
  deriving Repr, DecidableEq

namespace Image

/-- `mNumPixels` in the C++ container: width times height. -/
def numPixels (img : Image) : Nat := img.width * img.height

/-- `getNumChannels()` in the C++ container. -/
def numChannels (img : Image) : Nat := img.channels.length

/-- `getChannel( c )`: the sample buffer of channel `c` (out-of-range reads
are undefined behaviour in C++; the model returns the empty buffer). -/
def getChannel (img : Image) (c : Nat) : List ℚ := img.channels.getD c []

end Image

/-- Read sample `p` of channel `k` from a list of channel buffers
(out-of-range reads default to 0; the C++ never performs them). -/
def sampleAt (chs : List (List ℚ)) (k p : Nat) : ℚ :=
  (chs.getD k []).getD p 0

/-- Write value `v` at position `p` of channel `k`: `channels[k][p] = v`. -/
def writeSample (chs : List (List ℚ)) (k p : Nat) (v : ℚ) : List (List ℚ) :=
  chs.set k ((chs.getD k []).set p v)

/-- The constant `0.003921569` appearing in `getImageFromBytes`
("divide by 255, with a multiply"): a truncated decimal literal,
not exactly `1/255`. -/
def scaleConst : ℚ := 3921569 / 1000000000

/-- C `lrint` under the default rounding mode: round to nearest,
ties to even. -/
def lrintQ (x : ℚ) : ℤ :=
  if Int.fract x < 1/2 then ⌊x⌋
  else if 1/2 < Int.fract x then ⌊x⌋ + 1
  else if ⌊x⌋ % 2 = 0 then ⌊x⌋ else ⌊x⌋ + 1

/-- The C++ cast `(unsigned char)` applied to an integer: reduction
modulo 256. -/
def ucharOf (z : ℤ) : ℕ := (z % 256).toNat

/-- One output byte of the encoder: `(unsigned char)( lrint( s * 255 ) )`. -/
def encodeByte (s : ℚ) : ℕ := ucharOf (lrintQ (s * 255))

/-- `RGBAImage::getRGBABytes( Image *inImage )` (static): packs an image with
at least 3 channels into an RGBA byte buffer, 4 bytes per pixel.  The two
branches of the C++ (`numChannels > 3` with a real alpha channel, otherwise
default alpha 255) are kept; the sequential `bytes[i++] = ...` writes become
appends to the output list. -/
def getRGBABytesStatic (inImage : Image) : List ℕ :=
  let numPixels := inImage.width * inImage.height
  let numChannels := inImage.numChannels
  let channelZero := inImage.getChannel 0
  let channelOne := inImage.getChannel 1
  let channelTwo := inImage.getChannel 2
  if 3 < numChannels then
    let channelThree := inImage.getChannel 3
    (List.range numPixels).foldl
      (fun bytes p =>
        bytes ++ [encodeByte (channelZero.getD p 0),
                  encodeByte (channelOne.getD p 0),
                  encodeByte (channelTwo.getD p 0),
                  encodeByte (channelThree.getD p 0)]) []
  else
    (List.range numPixels).foldl
      (fun bytes p =>
        bytes ++ [encodeByte (channelZero.getD p 0),
                  encodeByte (channelOne.getD p 0),
                  encodeByte (channelTwo.getD p 0),
                  255]) []

/-- `RGBAImage::getRGBABytes()` (member): the C++ body is exactly
`return RGBAImage::getRGBABytes( this );`. -/
def getRGBABytesMember (img : Image) : List ℕ :=
  getRGBABytesStatic img

/-- One iteration of the inner `x` loop of the 3-channel fast path of
`getImageFromBytes`: unrolled writes to channels 0, 1, 2. -/
def decodeRow3 (inBytes : List ℕ) (inWidth outputRow y : Nat)
    (chs0 : List (List ℚ)) : List (List ℚ) :=
  (List.range inWidth).foldl
    (fun chs x =>
      let outputPixelIndex := outputRow * inWidth + x
      let regionPixelIndex := y * inWidth + x
      let byteIndex := regionPixelIndex * 3
      writeSample
        (writeSample
          (writeSample chs 0 outputPixelIndex
            ((inBytes.getD byteIndex 0 : ℚ) * scaleConst))
          1 outputPixelIndex
          ((inBytes.getD (byteIndex + 1) 0 : ℚ) * scaleConst))
        2 outputPixelIndex
        ((inBytes.getD (byteIndex + 2) 0 : ℚ) * scaleConst))
    chs0

/-- One iteration of the inner `x` loop of the 4-channel fast path:
unrolled writes to channels 0, 1, 2, 3. -/
def decodeRow4 (inBytes : List ℕ) (inWidth outputRow y : Nat)
    (chs0 : List (List ℚ)) : List (List ℚ) :=
  (List.range inWidth).foldl
    (fun chs x =>
      let outputPixelIndex := outputRow * inWidth + x
      let regionPixelIndex := y * inWidth + x
      let byteIndex := regionPixelIndex * 4
      writeSample
        (writeSample
          (writeSample
            (writeSample chs 0 outputPixelIndex
              ((inBytes.getD byteIndex 0 : ℚ) * scaleConst))
            1 outputPixelIndex
            ((inBytes.getD (byteIndex + 1) 0 : ℚ) * scaleConst))
          2 outputPixelIndex
          ((inBytes.getD (byteIndex + 2) 0 : ℚ) * scaleConst))
        3 outputPixelIndex
        ((inBytes.getD (byteIndex + 3) 0 : ℚ) * scaleConst))
    chs0

/-- One iteration of the inner `x` loop of the general ("dynamic") path:
a loop over all `inNumChannels` channels per pixel. -/
def decodeRowGen (inBytes : List ℕ) (inWidth inNumChannels outputRow y : Nat)
    (chs0 : List (List ℚ)) : List (List ℚ) :=
  (List.range inWidth).foldl
    (fun chs x =>
      let outputPixelIndex := outputRow * inWidth + x
      let regionPixelIndex := y * inWidth + x
      (List.range inNumChannels).foldl
        (fun chs2 i =>
          writeSample chs2 i outputPixelIndex
            ((inBytes.getD (regionPixelIndex * inNumChannels + i) 0 : ℚ) *
              scaleConst))
        chs)
    chs0

/-- The outer `y` loop of the 3-channel fast path, threading `outputRow`
(incremented once per row) through the fold state. -/
def decodeChannels3 (inBytes : List ℕ) (inWidth inHeight : Nat)
    (chs0 : List (List ℚ)) : List (List ℚ) :=
  ((List.range inHeight).foldl
    (fun st y => (decodeRow3 inBytes inWidth st.2 y st.1, st.2 + 1))
    (chs0, 0)).1

/-- The outer `y` loop of the 4-channel fast path. -/
def decodeChannels4 (inBytes : List ℕ) (inWidth inHeight : Nat)
    (chs0 : List (List ℚ)) : List (List ℚ) :=
  ((List.range inHeight).foldl
    (fun st y => (decodeRow4 inBytes inWidth st.2 y st.1, st.2 + 1))
    (chs0, 0)).1

/-- The outer `y` loop of the general path. -/
def decodeChannelsGen (inBytes : List ℕ) (inWidth inHeight inNumChannels : Nat)
    (chs0 : List (List ℚ)) : List (List ℚ) :=
  ((List.range inHeight).foldl
    (fun st y => (decodeRowGen inBytes inWidth inNumChannels st.2 y st.1, st.2 + 1))
    (chs0, 0)).1

/-- The channel buffers of `new Image( w, h, n, false )`: allocated but *not*
zero-initialized, modelled by an arbitrary fill value `junk`. -/
def freshChannels (inWidth inHeight inNumChannels : Nat) (junk : ℚ) :
    List (List ℚ) :=
  List.replicate inNumChannels (List.replicate (inWidth * inHeight) junk)

/-- `RGBAImage::getImageFromBytes`: builds an image from interleaved 8-bit
data, dispatching on the channel count exactly as the C++ does (`== 3`
fast path, `== 4` fast path, otherwise the general loop).  `junk` models the
contents of the non-zero-initialized buffers of `new Image(w,h,n,false)`. -/
def getImageFromBytes (inBytes : List ℕ)
    (inWidth inHeight inNumChannels : Nat) (junk : ℚ) : Image :=
  let chs0 := freshChannels inWidth inHeight inNumChannels junk
  if inNumChannels = 3 then
    { width := inWidth, height := inHeight,
      channels := decodeChannels3 inBytes inWidth inHeight chs0 }
  else if inNumChannels = 4 then
    { width := inWidth, height := inHeight,
      channels := decodeChannels4 inBytes inWidth inHeight chs0 }
  else
    { width := inWidth, height := inHeight,
      channels := decodeChannelsGen inBytes inWidth inHeight inNumChannels chs0 }

/-- The image the decoder's general ("dynamic") per-channel loop produces for
a given channel count, with no fast-path dispatch.  Used to state that the
unrolled 3- and 4-channel paths refine the general path. -/
def getImageFromBytesGeneralPath (inBytes : List ℕ)
    (inWidth inHeight inNumChannels : Nat) (junk : ℚ) : Image :=
  { width := inWidth, height := inHeight,
    channels := decodeChannelsGen inBytes inWidth inHeight inNumChannels
      (freshChannels inWidth inHeight inNumChannels junk) }

/-- `RGBAImage::RGBAImage( Image *inImage )`: constructs a 4-channel image
from a source of arbitrary channel count.  The base-class call
`Image( w, h, 4, numChannels < 4 )` zero-initializes the 4 buffers only when
the source has fewer than 4 channels (modelled from the spec: the container's
constructor takes a `zeroInitialize` flag; `junk` models uninitialized
memory).  Then `min(4, numChannels)` channels are copied verbatim and, when
the source had no alpha channel, channel 3 is filled with 1.0. -/
def RGBAImage.fromImage (inImage : Image) (junk : ℚ) : Image :=
  let numPixels := inImage.width * inImage.height
  let base : List (List ℚ) :=
    if inImage.numChannels < 4 then
      List.replicate 4 (List.replicate numPixels 0)
    else
      List.replicate 4 (List.replicate numPixels junk)
  let minNumChannels :=
    if inImage.numChannels < 4 then inImage.numChannels else 4
  let copied := (List.range minNumChannels).foldl
    (fun chs c => chs.set c (inImage.getChannel c)) base
  let final :=
    if minNumChannels < 4 then
      copied.set 3
        ((List.range numPixels).foldl (fun alpha i => alpha.set i 1)
          (copied.getD 3 []))
    else copied
  { width := inImage.width, height := inImage.height, channels := final }

/-- Modelled from the spec: `Image::filter( ChannelFilter*, int )` of the
absent `Image.h` "applies filterFn to exactly the named channel".  A filter
is modelled as a function on one channel buffer. -/
def Image.filterChannel (img : Image) (F : List ℚ → List ℚ) (c : Nat) :
    Image :=
  { img with channels := img.channels.set c (F (img.channels.getD c [])) }

/-- `RGBAImage::filter( ChannelFilter *inFilter )`: applies the filter to
channels `0 .. mNumChannels-2`, skipping the alpha channel. -/
def RGBAImage.filterAll (img : Image) (F : List ℚ → List ℚ) : Image :=
  (List.range (img.numChannels - 1)).foldl
    (fun im i => im.filterChannel F i) img

/-! ### Basic list-update lemmas -/

lemma getD_set_self {α : Type} (l : List α) (i : Nat) (v d : α)
    (h : i < l.length) : (l.set i v).getD i d = v := by
  simp [List.getD_eq_getElem?_getD, List.getElem?_set, h]

lemma getD_set_ne {α : Type} (l : List α) {i j : Nat} (v : α) (d : α)
    (h : j ≠ i) : (l.set i v).getD j d = l.getD j d := by
  simp [List.getD_eq_getElem?_getD, List.getElem?_set, Ne.symm h]

/-! ### Facts about `lrintQ` (round to nearest, ties to even) -/

lemma lrintQ_intCast (m : ℤ) : lrintQ (m : ℚ) = m := by
  simp [lrintQ, Int.fract_intCast]

lemma lrintQ_nonneg {x : ℚ} (h : 0 ≤ x) : 0 ≤ lrintQ x := by
  have hf : (0 : ℤ) ≤ ⌊x⌋ := Int.floor_nonneg.2 h
  unfold lrintQ
  split_ifs <;> omega

lemma lrintQ_le_255 {x : ℚ} (h : x ≤ 255) : lrintQ x ≤ 255 := by
  have hf : ⌊x⌋ ≤ 255 := by
    have : ⌊x⌋ ≤ ⌊(255 : ℚ)⌋ := Int.floor_le_floor h
    simpa using this
  unfold lrintQ
  split_ifs with h1 h2 h3
  · exact hf
  · -- fract x > 1/2, so x is not an integer and ⌊x⌋ < 255
    have hlt : (⌊x⌋ : ℚ) < 255 := by
      have := Int.floor_le x
      have hfr : x = ⌊x⌋ + Int.fract x := (Int.floor_add_fract x).symm
      nlinarith [Int.fract_nonneg x]
    have : ⌊x⌋ < 255 := by exact_mod_cast hlt
    omega
  · exact hf
  · have hfr12 : Int.fract x = 1/2 := le_antisymm (not_lt.1 h2) (not_lt.1 h1)
    have hlt : (⌊x⌋ : ℚ) < 255 := by
      have hfr : x = ⌊x⌋ + Int.fract x := (Int.floor_add_fract x).symm
      nlinarith
    have : ⌊x⌋ < 255 := by exact_mod_cast hlt
    omega

/-- `lrintQ` rounds to the *nearest* integer: it never moves the value by
more than 1/2 (so it is not a truncation). -/
lemma abs_lrintQ_sub_le (x : ℚ) : |(lrintQ x : ℚ) - x| ≤ 1/2 := by
  have hfr : x = ⌊x⌋ + Int.fract x := (Int.floor_add_fract x).symm
  have h0 : 0 ≤ Int.fract x := Int.fract_nonneg x
  have h1 : Int.fract x < 1 := Int.fract_lt_one x
  unfold lrintQ
  split_ifs with ha hb hc
  · rw [abs_le]; constructor <;> nlinarith
  · push_cast
    rw [abs_le]; constructor <;> nlinarith
  · have hfr12 : Int.fract x = 1/2 := le_antisymm (not_lt.1 hb) (not_lt.1 ha)
    rw [abs_le]; constructor <;> nlinarith
  · have hfr12 : Int.fract x = 1/2 := le_antisymm (not_lt.1 hb) (not_lt.1 ha)
    push_cast
    rw [abs_le]; constructor <;> nlinarith

lemma ucharOf_eq_toNat {z : ℤ} (h0 : 0 ≤ z) (h255 : z ≤ 255) :
    ucharOf z = z.toNat := by
  unfold ucharOf
  rw [Int.emod_eq_of_lt h0 (by omega)]

/-- For a sample in `[0,1]`, the encoder's byte is the nearest-integer
rounding of `s * 255`, with no wraparound from the `unsigned char` cast. -/
lemma encodeByte_of_mem_unit {s : ℚ} (h0 : 0 ≤ s) (h1 : s ≤ 1) :
    encodeByte s = (lrintQ (s * 255)).toNat := by
  unfold encodeByte
  exact ucharOf_eq_toNat (lrintQ_nonneg (by positivity))
    (lrintQ_le_255 (by nlinarith))

/-- A sample that is an exact multiple of 1/255 encodes to exactly its
numerator: `encodeByte (m/255) = m` for `m ≤ 255`. -/
lemma encodeByte_of_multiple (m : ℕ) (hm : m ≤ 255) :
    encodeByte ((m : ℚ) / 255) = m := by
  unfold encodeByte
  have h : (m : ℚ) / 255 * 255 = ((m : ℤ) : ℚ) := by push_cast; ring
  rw [h, lrintQ_intCast]
  have : ((m : ℤ) % 256) = m := by omega
  simp [ucharOf, this]

/-! ### Closed form of the encoder's sequential byte writes -/

lemma chunkFold_length (g : ℕ → List ℕ) (hg : ∀ q, (g q).length = 4) :
    ∀ m, ((List.range m).foldl (fun acc q => acc ++ g q) []).length = 4 * m := by
  intro m
  induction m with
  | zero => simp
  | succ m ih =>
      rw [List.range_succ, List.foldl_append]
      simp [ih, hg, Nat.mul_succ]

lemma chunkFold_getD (g : ℕ → List ℕ) (hg : ∀ q, (g q).length = 4) :
    ∀ m p k, p < m → k < 4 →
      ((List.range m).foldl (fun acc q => acc ++ g q) []).getD (4 * p + k) 0 =
        (g p).getD k 0 := by
  intro m
  induction m with
  | zero => omega
  | succ m ih =>
      intro p k hp hk
      rw [List.range_succ, List.foldl_append]
      simp only [List.foldl_cons, List.foldl_nil]
      rcases Nat.lt_or_ge p m with hpm | hpm
      · rw [List.getD_append]
        · exact ih p k hpm hk
        · rw [chunkFold_length g hg]; omega
      · have hpe : p = m := by omega
        subst hpe
        have hlen : ((List.range p).foldl (fun acc q => acc ++ g q) []).length
            = 4 * p := chunkFold_length g hg p
        have : 4 * p + k = ((List.range p).foldl
            (fun acc q => acc ++ g q) []).length + k := by omega
        rw [this, List.getD_append_right]
        · simp
        · exact Nat.le_add_right _ _

/-- Closed form of `getRGBABytesStatic` for images with a real alpha channel
(more than 3 channels): byte `4*p+k` is the encoding of sample `p` of
channel `k`. -/
lemma getRGBABytesStatic_getD_of_gt3 (img : Image) (h4 : 3 < img.numChannels)
    (p k : Nat) (hp : p < img.width * img.height) (hk : k < 4) :
    (getRGBABytesStatic img).getD (4 * p + k) 0 =
      encodeByte (sampleAt img.channels k p) := by
  unfold getRGBABytesStatic
  rw [if_pos h4]
  rw [chunkFold_getD _ (by intro q; simp) _ p k hp hk]
  interval_cases k <;>
    simp [sampleAt, Image.getChannel]

/-- Closed form of `getRGBABytesStatic` for images without an alpha channel
(at most 3 channels): the three colour bytes. -/
lemma getRGBABytesStatic_getD_of_le3 (img : Image) (h3 : ¬ 3 < img.numChannels)
    (p k : Nat) (hp : p < img.width * img.height) (hk : k < 3) :
    (getRGBABytesStatic img).getD (4 * p + k) 0 =
      encodeByte (sampleAt img.channels k p) := by
  unfold getRGBABytesStatic
  rw [if_neg h3]
  rw [chunkFold_getD _ (by intro q; simp) _ p k hp (by omega)]
  interval_cases k <;>
    simp [sampleAt, Image.getChannel]

/-- Closed form of `getRGBABytesStatic` for images without an alpha channel:
the fourth byte of every pixel is the hard-coded default alpha 255. -/
lemma getRGBABytesStatic_getD_alpha_of_le3 (img : Image)
    (h3 : ¬ 3 < img.numChannels) (p : Nat) (hp : p < img.width * img.height) :
    (getRGBABytesStatic img).getD (4 * p + 3) 0 = 255 := by
  unfold getRGBABytesStatic
  rw [if_neg h3]
  rw [chunkFold_getD _ (by intro q; simp) _ p 3 hp (by omega)]
  simp

/-! ### Well-formedness of channel buffers and write lemmas -/

/-- The channel buffers of an `n`-channel image of `len` pixels:
`n` buffers, each of length `len`. -/
def ChansWF (chs : List (List ℚ)) (n len : Nat) : Prop :=
  chs.length = n ∧ ∀ c ∈ chs, c.length = len

lemma ChansWF.channelLen {chs : List (List ℚ)} {n len : Nat}
    (hwf : ChansWF chs n len) {j : Nat} (hj : j < n) :
    (chs.getD j []).length = len := by
  have hjl : j < chs.length := hwf.1 ▸ hj
  exact hwf.2 _ (by rw [List.getD_eq_getElem _ _ hjl]; exact List.getElem_mem hjl)

lemma chansWF_writeSample {chs : List (List ℚ)} {n len : Nat}
    (hwf : ChansWF chs n len) (k p : Nat) (v : ℚ) :
    ChansWF (writeSample chs k p v) n len := by
  by_cases hk : k < chs.length
  · refine ⟨by simp [writeSample, hwf.1], ?_⟩
    intro c hc
    rcases List.mem_or_eq_of_mem_set hc with hc' | rfl
    · exact hwf.2 _ hc'
    · simpa using hwf.channelLen (hwf.1 ▸ hk)
  · rw [writeSample, List.set_eq_of_length_le (Nat.le_of_not_lt hk)]
    exact hwf

lemma sampleAt_writeSample_self {chs : List (List ℚ)} {k p : Nat} (v : ℚ)
    (hk : k < chs.length) (hp : p < (chs.getD k []).length) :
    sampleAt (writeSample chs k p v) k p = v := by
  unfold sampleAt writeSample
  rw [getD_set_self _ _ _ _ hk, getD_set_self _ _ _ _ hp]

lemma sampleAt_writeSample_ne_chan {chs : List (List ℚ)} {k p j q : Nat}
    (v : ℚ) (h : j ≠ k) :
    sampleAt (writeSample chs k p v) j q = sampleAt chs j q := by
  unfold sampleAt writeSample
  rw [getD_set_ne _ _ _ h]

lemma sampleAt_writeSample_ne_pos {chs : List (List ℚ)} {k p j q : Nat}
    (v : ℚ) (h : q ≠ p) :
    sampleAt (writeSample chs k p v) j q = sampleAt chs j q := by
  by_cases hj : j = k
  · subst hj
    by_cases hk : j < chs.length
    · unfold sampleAt writeSample
      rw [getD_set_self _ _ _ _ hk, getD_set_ne _ _ _ h]
    · unfold sampleAt writeSample
      rw [List.set_eq_of_length_le (Nat.le_of_not_lt hk)]
  · exact sampleAt_writeSample_ne_chan v hj

/-! ### The inner per-channel write loop -/

lemma chanFold_wf (f : ℕ → ℚ) (opi : Nat) {N len : Nat} :
    ∀ (n : Nat) (chs : List (List ℚ)), ChansWF chs N len →
      ChansWF ((List.range n).foldl
        (fun chs2 i => writeSample chs2 i opi (f i)) chs) N len := by
  intro n
  induction n with
  | zero => intro chs hwf; simpa using hwf
  | succ n ih =>
      intro chs hwf
      rw [List.range_succ, List.foldl_append]
      simp only [List.foldl_cons, List.foldl_nil]
      exact chansWF_writeSample (ih chs hwf) _ _ _

lemma chanFold_sample_ne_pos (f : ℕ → ℚ) (opi : Nat) {j q : Nat} (h : q ≠ opi) :
    ∀ (n : Nat) (chs : List (List ℚ)),
      sampleAt ((List.range n).foldl
        (fun chs2 i => writeSample chs2 i opi (f i)) chs) j q =
      sampleAt chs j q := by
  intro n
  induction n with
  | zero => intro chs; simp
  | succ n ih =>
      intro chs
      rw [List.range_succ, List.foldl_append]
      simp only [List.foldl_cons, List.foldl_nil]
      rw [sampleAt_writeSample_ne_pos _ h, ih chs]

lemma chanFold_sample_self (f : ℕ → ℚ) (opi : Nat) {N len : Nat} :
    ∀ (n : Nat) (chs : List (List ℚ)), ChansWF chs N len →
      ∀ k, k < n → k < N → opi < len →
      sampleAt ((List.range n).foldl
        (fun chs2 i => writeSample chs2 i opi (f i)) chs) k opi = f k := by
  intro n
  induction n with
  | zero => omega
  | succ n ih =>
      intro chs hwf k hk hkN hopi
      rw [List.range_succ, List.foldl_append]
      simp only [List.foldl_cons, List.foldl_nil]
      rcases Nat.lt_or_ge k n with hkn | hkn
      · rw [sampleAt_writeSample_ne_chan _ (by omega)]
        exact ih chs hwf k hkn hkN hopi
      · have hke : k = n := by omega
        subst hke
        have hwf2 := chanFold_wf f opi k chs hwf
        refine sampleAt_writeSample_self _ (hwf2.1 ▸ hkN) ?_
        rw [hwf2.channelLen hkN]
        exact hopi

/-! ### The per-row write loop of the general decoding path -/

lemma rowFold_wf (bytes : List ℕ) (w n orow y : Nat) {N len : Nat} :
    ∀ (W : Nat) (chs : List (List ℚ)), ChansWF chs N len →
      ChansWF ((List.range W).foldl
        (fun chs x =>
          (List.range n).foldl
            (fun chs2 i =>
              writeSample chs2 i (orow * w + x)
                ((bytes.getD ((y * w + x) * n + i) 0 : ℚ) * scaleConst)) chs)
        chs) N len := by
  intro W
  induction W with
  | zero => intro chs hwf; simpa using hwf
  | succ W ih =>
      intro chs hwf
      rw [List.range_succ, List.foldl_append]
      simp only [List.foldl_cons, List.foldl_nil]
      exact chanFold_wf _ _ n _ (ih chs hwf)

lemma rowFold_frame (bytes : List ℕ) (w n orow y : Nat) {q : Nat} :
    ∀ (W : Nat) (chs : List (List ℚ)), (∀ x, x < W → q ≠ orow * w + x) →
      ∀ j, sampleAt ((List.range W).foldl
        (fun chs x =>
          (List.range n).foldl
            (fun chs2 i =>
              writeSample chs2 i (orow * w + x)
                ((bytes.getD ((y * w + x) * n + i) 0 : ℚ) * scaleConst)) chs)
        chs) j q = sampleAt chs j q := by
  intro W
  induction W with
  | zero => intro chs _ j; simp
  | succ W ih =>
      intro chs hq j
      rw [List.range_succ, List.foldl_append]
      simp only [List.foldl_cons, List.foldl_nil]
      rw [chanFold_sample_ne_pos _ _ (hq W (by omega)) n]
      exact ih chs (fun x hx => hq x (by omega)) j

lemma rowFold_sample (bytes : List ℕ) (w n orow y : Nat) {N len : Nat} :
    ∀ (W : Nat) (chs : List (List ℚ)), ChansWF chs N len →
      ∀ x k, x < W → k < n → k < N → orow * w + x < len →
      sampleAt ((List.range W).foldl
        (fun chs x =>
          (List.range n).foldl
            (fun chs2 i =>
              writeSample chs2 i (orow * w + x)
                ((bytes.getD ((y * w + x) * n + i) 0 : ℚ) * scaleConst)) chs)
        chs) k (orow * w + x) =
        (bytes.getD ((y * w + x) * n + k) 0 : ℚ) * scaleConst := by
  intro W
  induction W with
  | zero => omega
  | succ W ih =>
      intro chs hwf x k hx hkn hkN hlen
      rw [List.range_succ, List.foldl_append]
      simp only [List.foldl_cons, List.foldl_nil]
      rcases Nat.lt_or_ge x W with hxW | hxW
      · rw [chanFold_sample_ne_pos _ _ (by omega : orow * w + x ≠ orow * w + W) n]
        exact ih chs hwf x k hxW hkn hkN hlen
      · have hxe : x = W := by omega
        subst hxe
        exact chanFold_sample_self _ _ n _ (rowFold_wf bytes w n orow y x chs hwf)
          k hkn hkN hlen

/-- `decodeRowGen` written as an explicit fold with the `let` bindings
inlined (definitional). -/
lemma decodeRowGen_eq (bytes : List ℕ) (w n orow y : Nat)
    (chs : List (List ℚ)) :
    decodeRowGen bytes w n orow y chs =
      (List.range w).foldl
        (fun chs x =>
          (List.range n).foldl
            (fun chs2 i =>
              writeSample chs2 i (orow * w + x)
                ((bytes.getD ((y * w + x) * n + i) 0 : ℚ) * scaleConst)) chs)
        chs := rfl

/-! ### The outer per-row loop and the decoder's closed form -/

lemma genFold_spec (bytes : List ℕ) (w n : Nat) {N len : Nat} :
    ∀ (m : Nat) (chs0 : List (List ℚ)), ChansWF chs0 N len →
      ((List.range m).foldl
          (fun st y => (decodeRowGen bytes w n st.2 y st.1, st.2 + 1))
          (chs0, 0)).2 = m ∧
      ChansWF ((List.range m).foldl
          (fun st y => (decodeRowGen bytes w n st.2 y st.1, st.2 + 1))
          (chs0, 0)).1 N len ∧
      ∀ y x k, y < m → x < w → k < n → k < N → y * w + x < len →
        sampleAt ((List.range m).foldl
            (fun st y => (decodeRowGen bytes w n st.2 y st.1, st.2 + 1))
            (chs0, 0)).1 k (y * w + x) =
          (bytes.getD ((y * w + x) * n + k) 0 : ℚ) * scaleConst := by
  intro m
  induction m with
  | zero =>
      intro chs0 hwf
      refine ⟨rfl, by simpa using hwf, by omega⟩
  | succ m ih =>
      intro chs0 hwf
      obtain ⟨hsnd, hwfm, hsample⟩ := ih chs0 hwf
      rw [List.range_succ, List.foldl_append]
      simp only [List.foldl_cons, List.foldl_nil]
      rw [hsnd]
      refine ⟨rfl, ?_, ?_⟩
      · rw [decodeRowGen_eq]
        exact rowFold_wf bytes w n m m w _ hwfm
      · intro y x k hy hx hkn hkN hlen
        rw [decodeRowGen_eq]
        rcases Nat.lt_or_ge y m with hym | hym
        · have hlt : y * w + x < m * w := by
            have h1 : y * w + x < (y + 1) * w := by
              have hsm : (y + 1) * w = y * w + w := by ring
              omega
            have h2 : (y + 1) * w ≤ m * w := Nat.mul_le_mul_right w (by omega)
            omega
          rw [rowFold_frame bytes w n m m w _ (fun x2 hx2 => by omega) k]
          exact hsample y x k hym hx hkn hkN hlen
        · have hye : y = m := by omega
          subst hye
          exact rowFold_sample bytes w n y y w _ hwfm x k hx hkn hkN hlen

lemma freshChannels_wf (w h n : Nat) (junk : ℚ) :
    ChansWF (freshChannels w h n junk) n (w * h) := by
  refine ⟨by simp [freshChannels], ?_⟩
  intro c hc
  rw [List.eq_of_mem_replicate hc]
  simp

/-- The fast-path dispatch of `getImageFromBytes` never changes the result:
for every channel count it produces exactly the image of the general
("dynamic") path.  The 3- and 4-channel cases are definitional: the unrolled
writes are the literal unfolding of the per-channel loop. -/
lemma getImageFromBytes_eq_generalPath (bytes : List ℕ)
    (w h n : Nat) (junk : ℚ) :
    getImageFromBytes bytes w h n junk =
      getImageFromBytesGeneralPath bytes w h n junk := by
  unfold getImageFromBytes getImageFromBytesGeneralPath
  by_cases h3 : n = 3
  · subst h3; rfl
  · by_cases h4 : n = 4
    · subst h4; rfl
    · simp [h3, h4]

lemma getImageFromBytes_width (bytes : List ℕ) (w h n : Nat) (junk : ℚ) :
    (getImageFromBytes bytes w h n junk).width = w := by
  rw [getImageFromBytes_eq_generalPath]; rfl

lemma getImageFromBytes_height (bytes : List ℕ) (w h n : Nat) (junk : ℚ) :
    (getImageFromBytes bytes w h n junk).height = h := by
  rw [getImageFromBytes_eq_generalPath]; rfl

/-- The decoded image is well-formed: `n` channels of `w*h` samples each. -/
lemma getImageFromBytes_wf (bytes : List ℕ) (w h n : Nat) (junk : ℚ) :
    ChansWF (getImageFromBytes bytes w h n junk).channels n (w * h) := by
  rw [getImageFromBytes_eq_generalPath]
  unfold getImageFromBytesGeneralPath decodeChannelsGen
  exact (genFold_spec bytes w n h _ (freshChannels_wf w h n junk)).2.1

/-- Closed form of the decoder: for every channel count `n`, channel `k` of
the pixel at row `y`, column `x` holds the input byte at offset
`(y*w + x)*n + k` multiplied by the constant `0.003921569`. -/
lemma getImageFromBytes_sample (bytes : List ℕ) (w h n : Nat) (junk : ℚ)
    (k y x : Nat) (hk : k < n) (hy : y < h) (hx : x < w) :
    sampleAt (getImageFromBytes bytes w h n junk).channels k (y * w + x) =
      (bytes.getD ((y * w + x) * n + k) 0 : ℚ) * scaleConst := by
  rw [getImageFromBytes_eq_generalPath]
  unfold getImageFromBytesGeneralPath decodeChannelsGen
  refine (genFold_spec bytes w n h _ (freshChannels_wf w h n junk)).2.2
    y x k hy hx hk hk ?_
  have h1 : y * w + x < (y + 1) * w := by
    have hsm : (y + 1) * w = y * w + w := by ring
    omega
  have h2 : (y + 1) * w ≤ h * w := Nat.mul_le_mul_right w (by omega)
  have h3 : h * w = w * h := Nat.mul_comm h w
  omega

/-! ### The copy loop and alpha-fill loop of `RGBAImage::RGBAImage(Image*)` -/

lemma setFold_length (g : ℕ → List ℚ) :
    ∀ (m : Nat) (base : List (List ℚ)),
      ((List.range m).foldl (fun chs c => chs.set c (g c)) base).length =
        base.length := by
  intro m
  induction m with
  | zero => intro base; simp
  | succ m ih =>
      intro base
      rw [List.range_succ, List.foldl_append]
      simp [ih]

lemma setFold_getD (g : ℕ → List ℚ) :
    ∀ (m : Nat) (base : List (List ℚ)), m ≤ base.length → ∀ j,
      ((List.range m).foldl (fun chs c => chs.set c (g c)) base).getD j [] =
        if j < m then g j else base.getD j [] := by
  intro m
  induction m with
  | zero => intro base _ j; simp
  | succ m ih =>
      intro base hm j
      rw [List.range_succ, List.foldl_append]
      simp only [List.foldl_cons, List.foldl_nil]
      by_cases hj : j = m
      · subst hj
        rw [getD_set_self]
        · simp
        · rw [setFold_length]; omega
      · rw [getD_set_ne _ _ _ hj, ih base (by omega) j]
        by_cases hjm : j < m
        · rw [if_pos hjm, if_pos (by omega)]
        · rw [if_neg hjm, if_neg (by omega)]

lemma fillFold_length :
    ∀ (m : Nat) (l : List ℚ),
      ((List.range m).foldl (fun alpha i => alpha.set i (1 : ℚ)) l).length =
        l.length := by
  intro m
  induction m with
  | zero => intro l; simp
  | succ m ih =>
      intro l
      rw [List.range_succ, List.foldl_append]
      simp [ih]

lemma fillFold_getD :
    ∀ (m : Nat) (l : List ℚ) (i : Nat), i < m → i < l.length →
      ((List.range m).foldl (fun alpha i => alpha.set i (1 : ℚ)) l).getD i 0 =
        1 := by
  intro m
  induction m with
  | zero => omega
  | succ m ih =>
      intro l i him hil
      rw [List.range_succ, List.foldl_append]
      simp only [List.foldl_cons, List.foldl_nil]
      by_cases hi : i = m
      · subst hi
        rw [getD_set_self]
        rw [fillFold_length]; omega
      · rw [getD_set_ne _ _ _ hi]
        exact ih l i (by omega) hil

/-! ### Destructuring a 4-channel image -/

lemma exists_four_of_length_eq {α : Type} {l : List α} (h : l.length = 4) :
    ∃ a b c d, l = [a, b, c, d] := by
  obtain ⟨a, l, rfl⟩ := List.exists_of_length_succ _ h
  simp only [List.length_cons, Nat.succ.injEq] at h
  obtain ⟨b, l, rfl⟩ := List.exists_of_length_succ _ h
  simp only [List.length_cons, Nat.succ.injEq] at h
  obtain ⟨c, l, rfl⟩ := List.exists_of_length_succ _ h
  simp only [List.length_cons, Nat.succ.injEq] at h
  obtain ⟨d, l, rfl⟩ := List.exists_of_length_succ _ h
  simp only [List.length_cons, Nat.succ.injEq] at h
  rw [List.length_eq_zero] at h
  subst h
  exact ⟨a, b, c, d, rfl⟩

lemma pixelIndex_lt {y x w h : Nat} (hy : y < h) (hx : x < w) :
    y * w + x < w * h := by
  have h1 : (y + 1) * w = y * w + w := by ring
  have h2 : (y + 1) * w ≤ h * w := Nat.mul_le_mul_right w (by omega)
  have h3 : h * w = w * h := Nat.mul_comm h w
  omega

/-! ### The claims -/

/-- Claim C10: the member `getRGBABytes()` returns a byte array with exactly
the same contents as the static `getRGBABytes` applied to the same image
(the member's C++ body is precisely that call). -/
theorem claim_C10_member_eq_static (img : Image) :
    getRGBABytesMember img = getRGBABytesStatic img := rfl

/-- Claim C9: the decoder's unrolled 3-channel and 4-channel fast paths
produce an image numerically identical, sample for sample, to the one the
general per-channel loop produces at `N = 3` and `N = 4`: both at the level
of `getImageFromBytes` (whose dispatch picks the fast paths) and of the raw
channel-buffer loops, for every starting buffer. -/
theorem claim_C9_fast_paths_match_general (bytes : List ℕ) (w h : Nat)
    (junk : ℚ) :
    getImageFromBytes bytes w h 3 junk =
        getImageFromBytesGeneralPath bytes w h 3 junk ∧
    getImageFromBytes bytes w h 4 junk =
        getImageFromBytesGeneralPath bytes w h 4 junk ∧
    (∀ chs0, decodeChannels3 bytes w h chs0 =
        decodeChannelsGen bytes w h 3 chs0) ∧
    (∀ chs0, decodeChannels4 bytes w h chs0 =
        decodeChannelsGen bytes w h 4 chs0) :=
  ⟨getImageFromBytes_eq_generalPath bytes w h 3 junk,
   getImageFromBytes_eq_generalPath bytes w h 4 junk,
   fun _ => rfl, fun _ => rfl⟩

/-- Claim C6: for every byte buffer, width, height and channel count
`N ≥ 1`, the decoder maps the input byte at offset `(y*w + x)*N + k` to
channel `k` of the output pixel at linear index `y*w + x` (row-major
order). -/
theorem claim_C6_row_major_mapping (bytes : List ℕ) (w h n : Nat) (junk : ℚ)
    (k y x : Nat) (hn : 1 ≤ n) (hk : k < n) (hy : y < h) (hx : x < w) :
    sampleAt (getImageFromBytes bytes w h n junk).channels k (y * w + x) =
      (bytes.getD ((y * w + x) * n + k) 0 : ℚ) * scaleConst :=
  getImageFromBytes_sample bytes w h n junk k y x hk hy hx

/-- Witness for C6 at concrete inputs: a 2-by-1 two-channel buffer where the
second pixel group feeds pixel `(1,0)`, and a 1-by-2 one-channel buffer where
the second byte feeds row 1 (row-major, not column-major). -/
theorem claim_C6_witness :
    sampleAt (getImageFromBytes [10, 20, 30, 40] 2 1 2 7).channels 1
        (0 * 2 + 1) = (40 : ℚ) * scaleConst ∧
    sampleAt (getImageFromBytes [10, 20] 1 2 1 7).channels 0
        (1 * 1 + 0) = (20 : ℚ) * scaleConst := by
  constructor
  · have h := claim_C6_row_major_mapping [10, 20, 30, 40] 2 1 2 7 1 0 1
      (by decide) (by decide) (by decide) (by decide)
    rw [h]; norm_num
  · have h := claim_C6_row_major_mapping [10, 20] 1 2 1 7 0 1 0
      (by decide) (by decide) (by decide) (by decide)
    rw [h]; norm_num

/-- Claim C2 counterexample: decoding the single pixel `[128,64,191,255]`
with channel count 4 does *not* yield `byte/255` exactly: the alpha sample is
not 1.0 and the red sample is not 128/255, because the decoder multiplies by
the truncated literal `0.003921569` instead of dividing by 255. -/
theorem claim_C2_counterexample :
    sampleAt (getImageFromBytes [128, 64, 191, 255] 1 1 4 0).channels 3 0 ≠ 1 ∧
    sampleAt (getImageFromBytes [128, 64, 191, 255] 1 1 4 0).channels 0 0 ≠
      128 / 255 := by
  have h3 := getImageFromBytes_sample [128, 64, 191, 255] 1 1 4 0 3 0 0
    (by norm_num) (by norm_num) (by norm_num)
  have h0 := getImageFromBytes_sample [128, 64, 191, 255] 1 1 4 0 0 0 0
    (by norm_num) (by norm_num) (by norm_num)
  have h3' : sampleAt (getImageFromBytes [128, 64, 191, 255] 1 1 4 0).channels
      3 0 = (255 : ℚ) * scaleConst := by simpa using h3
  have h0' : sampleAt (getImageFromBytes [128, 64, 191, 255] 1 1 4 0).channels
      0 0 = (128 : ℚ) * scaleConst := by simpa using h0
  rw [h3', h0']
  norm_num [scaleConst]

/-- Claim C2 as amended: the decoder produces a new image with `N` channels
of `w*h` samples each, and every output sample equals the corresponding
input byte multiplied by the constant `0.003921569` — which is *not* `1/255`,
so the samples are not `byte/255`; in particular `[128,64,191,255]` decodes
to `[128*c, 64*c, 191*c, 255*c]` with `c = 0.003921569` (alpha
`1.000000095`, not 1.0). -/
theorem claim_C2_amended_decoder_contract (bytes : List ℕ) (w h n : Nat)
    (junk : ℚ) (hn : 1 ≤ n) :
    scaleConst ≠ 1 / 255 ∧
    (getImageFromBytes bytes w h n junk).channels.length = n ∧
    (∀ c ∈ (getImageFromBytes bytes w h n junk).channels, c.length = w * h) ∧
    ∀ k y x, k < n → y < h → x < w →
      sampleAt (getImageFromBytes bytes w h n junk).channels k (y * w + x) =
        (bytes.getD ((y * w + x) * n + k) 0 : ℚ) * scaleConst := by
  refine ⟨by norm_num [scaleConst], (getImageFromBytes_wf bytes w h n junk).1,
    (getImageFromBytes_wf bytes w h n junk).2, ?_⟩
  intro k y x hk hy hx
  exact getImageFromBytes_sample bytes w h n junk k y x hk hy hx

/-- Witness for the amended C2 at the spec's concrete pixel. -/
theorem claim_C2_witness :
    (getImageFromBytes [128, 64, 191, 255] 1 1 4 0).channels.length = 4 ∧
    sampleAt (getImageFromBytes [128, 64, 191, 255] 1 1 4 0).channels 3
        (0 * 1 + 0) = (255 : ℚ) * scaleConst := by
  have h := claim_C2_amended_decoder_contract [128, 64, 191, 255] 1 1 4 0
    (by decide)
  refine ⟨h.2.1, ?_⟩
  rw [h.2.2.2 3 0 0 (by decide) (by decide) (by decide)]
  norm_num

/-- Claim C8 counterexample: the decoded sample of byte 255 is
`255 * 0.003921569 = 1.000000095`, which lies outside `[0,1]` and is not
1.0. -/
theorem claim_C8_counterexample :
    ¬ sampleAt (getImageFromBytes [255] 1 1 1 0).channels 0 0 ≤ 1 ∧
    sampleAt (getImageFromBytes [255] 1 1 1 0).channels 0 0 ≠ 1 := by
  have h := getImageFromBytes_sample [255] 1 1 1 0 0 0 0
    (by norm_num) (by norm_num) (by norm_num)
  have h' : sampleAt (getImageFromBytes [255] 1 1 1 0).channels 0 0 =
      (255 : ℚ) * scaleConst := by simpa using h
  rw [h']
  norm_num [scaleConst]

/-- Claim C8 as amended: for byte buffers of genuine 8-bit values
(each `≤ 255`), every decoded sample lies in `[0, 255*0.003921569]`
(an interval slightly *wider* than `[0,1]`); byte 0 maps to 0.0 and
byte 255 maps to `255*0.003921569 = 1.000000095`, not to 1.0. -/
theorem claim_C8_amended_sample_range (bytes : List ℕ) (w h n : Nat)
    (junk : ℚ) (hb : ∀ b ∈ bytes, b ≤ 255) (k y x : Nat)
    (hk : k < n) (hy : y < h) (hx : x < w) :
    0 ≤ sampleAt (getImageFromBytes bytes w h n junk).channels k (y * w + x) ∧
    sampleAt (getImageFromBytes bytes w h n junk).channels k (y * w + x) ≤
      255 * scaleConst ∧
    (bytes.getD ((y * w + x) * n + k) 0 = 0 →
      sampleAt (getImageFromBytes bytes w h n junk).channels k (y * w + x)
        = 0) ∧
    (bytes.getD ((y * w + x) * n + k) 0 = 255 →
      sampleAt (getImageFromBytes bytes w h n junk).channels k (y * w + x)
        = 255 * scaleConst) := by
  rw [getImageFromBytes_sample bytes w h n junk k y x hk hy hx]
  have hble : bytes.getD ((y * w + x) * n + k) 0 ≤ 255 := by
    by_cases hidx : (y * w + x) * n + k < bytes.length
    · rw [List.getD_eq_getElem _ _ hidx]
      exact hb _ (List.getElem_mem hidx)
    · rw [List.getD_eq_default _ _ (by omega)]
      omega
  have hscale : (0 : ℚ) < scaleConst := by norm_num [scaleConst]
  refine ⟨by positivity, ?_, ?_, ?_⟩
  · have : ((bytes.getD ((y * w + x) * n + k) 0 : ℕ) : ℚ) ≤ 255 := by
      exact_mod_cast hble
    nlinarith
  · intro hzero; rw [hzero]; norm_num
  · intro h255; rw [h255]; norm_num

/-- Witness for the amended C8: byte 255 in the buffer `[0,255]` decodes to
exactly `255*0.003921569`, inside the amended range. -/
theorem claim_C8_witness :
    0 ≤ sampleAt (getImageFromBytes [0, 255] 2 1 1 7).channels 0 (0 * 2 + 1) ∧
    sampleAt (getImageFromBytes [0, 255] 2 1 1 7).channels 0 (0 * 2 + 1) ≤
      255 * scaleConst ∧
    sampleAt (getImageFromBytes [0, 255] 2 1 1 7).channels 0 (0 * 2 + 1) =
      255 * scaleConst := by
  have h := claim_C8_amended_sample_range [0, 255] 2 1 1 7
    (by decide) 0 0 1 (by decide) (by decide) (by decide)
  exact ⟨h.1, h.2.1, h.2.2.2 (by decide)⟩

/-- Claim C1 counterexample: the 1-by-1 four-channel image whose samples are
all 1.0 (an exact multiple of 1/255) does not survive the round trip: the
decoded red sample is `255*0.003921569 = 1.000000095`, not 1.0, so
`decode(encode(image)) ≠ image`. -/
theorem claim_C1_counterexample :
    getImageFromBytes
        (getRGBABytesStatic ⟨1, 1, [[1], [1], [1], [1]]⟩) 1 1 4 0 ≠
      Image.mk 1 1 [[1], [1], [1], [1]] ∧
    sampleAt (getImageFromBytes
        (getRGBABytesStatic ⟨1, 1, [[1], [1], [1], [1]]⟩) 1 1 4 0).channels
        0 0 ≠
      sampleAt (Image.mk 1 1 [[1], [1], [1], [1]]).channels 0 0 := by
  have he : encodeByte 1 = 255 := by
    have h : (1 : ℚ) = ((255 : ℕ) : ℚ) / 255 := by norm_num
    rw [h, encodeByte_of_multiple 255 (by norm_num)]
  have henc : getRGBABytesStatic ⟨1, 1, [[1], [1], [1], [1]]⟩ =
      [255, 255, 255, 255] := by
    simp [getRGBABytesStatic, Image.numChannels, Image.getChannel,
      List.range_succ, he]
  have hdec := getImageFromBytes_sample [255, 255, 255, 255] 1 1 4 0 0 0 0
    (by norm_num) (by norm_num) (by norm_num)
  have hs : sampleAt (getImageFromBytes
      (getRGBABytesStatic ⟨1, 1, [[1], [1], [1], [1]]⟩) 1 1 4 0).channels
      0 0 ≠ sampleAt (Image.mk 1 1 [[1], [1], [1], [1]]).channels 0 0 := by
    rw [henc]
    have h' : sampleAt (getImageFromBytes [255, 255, 255, 255] 1 1 4
        0).channels 0 0 = (255 : ℚ) * scaleConst := by simpa using hdec
    rw [h']
    have h2 : sampleAt (Image.mk 1 1 [[1], [1], [1], [1]]).channels 0 0 =
        1 := by simp [sampleAt]
    rw [h2]
    norm_num [scaleConst]
  refine ⟨?_, hs⟩
  intro heq
  exact hs (congrArg (fun im => sampleAt im.channels 0 0) heq)

/-- Claim C1 as amended: for an image with 3 or 4 channels whose samples are
exact multiples of 1/255, decoding the encoder's output (same width and
height, channel count 4) yields, on each original channel, the original
sample multiplied by the constant `255*0.003921569 = 1.000000095` — a
uniformly scaled image, not an exact round trip. -/
theorem claim_C1_amended_roundtrip (img : Image) (junk : ℚ)
    (hch : img.numChannels = 3 ∨ img.numChannels = 4)
    (hmul : ∀ k p, k < img.numChannels → p < img.width * img.height →
      ∃ m : ℕ, m ≤ 255 ∧ sampleAt img.channels k p = (m : ℚ) / 255) :
    ∀ k y x, k < img.numChannels → y < img.height → x < img.width →
      sampleAt (getImageFromBytes (getRGBABytesStatic img) img.width
          img.height 4 junk).channels k (y * img.width + x) =
        sampleAt img.channels k (y * img.width + x) * (255 * scaleConst) := by
  intro k y x hk hy hx
  have hk4 : k < 4 := by rcases hch with h | h <;> omega
  have hp : y * img.width + x < img.width * img.height := pixelIndex_lt hy hx
  rw [getImageFromBytes_sample _ _ _ _ _ k y x hk4 hy hx]
  obtain ⟨m, hm, hs⟩ := hmul k (y * img.width + x) hk hp
  have hbyte : (getRGBABytesStatic img).getD
      ((y * img.width + x) * 4 + k) 0 = m := by
    have h4k : (y * img.width + x) * 4 + k = 4 * (y * img.width + x) + k := by
      ring
    rw [h4k]
    rcases hch with h3 | h4
    · have hno : ¬ 3 < img.numChannels := by omega
      rw [getRGBABytesStatic_getD_of_le3 img hno _ k hp (by omega), hs]
      exact encodeByte_of_multiple m hm
    · rw [getRGBABytesStatic_getD_of_gt3 img (by omega) _ k hp hk4, hs]
      exact encodeByte_of_multiple m hm
  rw [hbyte, hs]
  ring

/-- Witness for the amended C1: a 1-by-1 three-channel image with samples
`[255/255, 51/255, 0/255]`; the decoded red sample is the original scaled by
`255*0.003921569`. -/
theorem claim_C1_witness :
    sampleAt (getImageFromBytes
        (getRGBABytesStatic ⟨1, 1, [[1], [1/5], [0]]⟩) 1 1 4 0).channels 0
        (0 * 1 + 0) =
      sampleAt (Image.mk 1 1 [[1], [1/5], [0]]).channels 0 (0 * 1 + 0) *
        (255 * scaleConst) := by
  have h := claim_C1_amended_roundtrip ⟨1, 1, [[1], [1/5], [0]]⟩ 0
    (Or.inl rfl) ?_
  · exact h 0 0 0 (by norm_num [Image.numChannels]) (by norm_num)
      (by norm_num)
  · intro k p hk hp
    have hk3 : k < 3 := by simpa [Image.numChannels] using hk
    have hp1 : p < 1 := by simpa using hp
    interval_cases p
    interval_cases k
    · exact ⟨255, by norm_num, by norm_num [sampleAt]⟩
    · exact ⟨51, by norm_num, by norm_num [sampleAt]⟩
    · exact ⟨0, by norm_num, by norm_num [sampleAt]⟩

/-- The encoder's output depends only on the dimensions and the first four
channels: channels beyond index 3 are never read. -/
lemma getRGBABytesStatic_ext (a b : Image) (hw : a.width = b.width)
    (hh : a.height = b.height) (ha : 3 < a.numChannels)
    (hb : 3 < b.numChannels)
    (hch : ∀ j, j < 4 → a.channels.getD j [] = b.channels.getD j []) :
    getRGBABytesStatic a = getRGBABytesStatic b := by
  have h0 := hch 0 (by omega)
  have h1 := hch 1 (by omega)
  have h2 := hch 2 (by omega)
  have h3 := hch 3 (by omega)
  simp only [getRGBABytesStatic, Image.getChannel]
  rw [if_pos ha, if_pos hb, hw, hh]
  simp only [h0, h1, h2, h3]

/-- Claim C3: for an image with at least 4 channels and samples in `[0,1]`,
each of the 4 bytes the encoder writes per pixel equals the sample of
channels 0..3 at that pixel multiplied by 255 and rounded to the *nearest*
integer (within 1/2, so not truncated), and channels beyond index 3 have no
effect on the output. -/
theorem claim_C3_encoder_rounding (img : Image) (h4 : 4 ≤ img.numChannels)
    (p k : Nat) (hp : p < img.width * img.height) (hk : k < 4)
    (hs0 : 0 ≤ sampleAt img.channels k p)
    (hs1 : sampleAt img.channels k p ≤ 1) :
    (getRGBABytesStatic img).getD (4 * p + k) 0 =
      (lrintQ (sampleAt img.channels k p * 255)).toNat ∧
    |(lrintQ (sampleAt img.channels k p * 255) : ℚ) -
        sampleAt img.channels k p * 255| ≤ 1 / 2 ∧
    ∀ img2 : Image, img2.width = img.width → img2.height = img.height →
      4 ≤ img2.numChannels →
      (∀ j, j < 4 → img2.channels.getD j [] = img.channels.getD j []) →
      getRGBABytesStatic img2 = getRGBABytesStatic img := by
  refine ⟨?_, abs_lrintQ_sub_le _, ?_⟩
  · rw [getRGBABytesStatic_getD_of_gt3 img (by omega) p k hp hk]
    exact encodeByte_of_mem_unit hs0 hs1
  · intro img2 hw hh h42 hch
    exact getRGBABytesStatic_ext img2 img hw hh (by omega) (by omega) hch

/-- Witness for C3: the 1-by-1 image with channels `[0.5, 0.25, 0.75, 1.0]`
encodes to the bytes `[128, 64, 191, 255]` (note `round(127.5) = 128`, not
truncation's 127), and a fifth channel does not change the output. -/
theorem claim_C3_witness :
    (getRGBABytesStatic ⟨1, 1, [[1/2], [1/4], [3/4], [1]]⟩).getD
        (4 * 0 + 0) 0 = 128 ∧
    getRGBABytesStatic ⟨1, 1, [[1/2], [1/4], [3/4], [1]]⟩ =
      [128, 64, 191, 255] ∧
    getRGBABytesStatic ⟨1, 1, [[1/2], [1/4], [3/4], [1], [1/3]]⟩ =
      getRGBABytesStatic ⟨1, 1, [[1/2], [1/4], [3/4], [1]]⟩ := by
  have h := claim_C3_encoder_rounding ⟨1, 1, [[1/2], [1/4], [3/4], [1]]⟩
    (by norm_num [Image.numChannels]) 0 0 (by norm_num) (by norm_num)
    (by norm_num [sampleAt]) (by norm_num [sampleAt])
  refine ⟨h.1.trans (by norm_num [sampleAt, lrintQ, Int.fract]; decide),
    ?_, ?_⟩
  · simp [getRGBABytesStatic, Image.numChannels, Image.getChannel,
      List.range_succ, encodeByte, ucharOf]
    norm_num [lrintQ, Int.fract]
    decide
  · exact h.2.2 ⟨1, 1, [[1/2], [1/4], [3/4], [1], [1/3]]⟩ rfl rfl
      (by norm_num [Image.numChannels])
      (by intro j hj; interval_cases j <;> norm_num)

/-- Claim C4: for a 3-channel image the encoder writes the rounded colour
samples as the first 3 bytes of each pixel and hard-codes the 4th byte of
every pixel to 255, whatever the input samples are. -/
theorem claim_C4_default_alpha (img : Image) (h3 : img.numChannels = 3)
    (p : Nat) (hp : p < img.width * img.height) :
    (getRGBABytesStatic img).getD (4 * p + 3) 0 = 255 ∧
    ∀ k, k < 3 → 0 ≤ sampleAt img.channels k p →
      sampleAt img.channels k p ≤ 1 →
      (getRGBABytesStatic img).getD (4 * p + k) 0 =
        (lrintQ (sampleAt img.channels k p * 255)).toNat := by
  have hno : ¬ 3 < img.numChannels := by omega
  refine ⟨getRGBABytesStatic_getD_alpha_of_le3 img hno p hp, ?_⟩
  intro k hk hs0 hs1
  rw [getRGBABytesStatic_getD_of_le3 img hno p k hp hk]
  exact encodeByte_of_mem_unit hs0 hs1

/-- Witness for C4: a 2-by-1 three-channel image with assorted samples
(samples of the second pixel even out of range) still gets alpha byte 255 at
offsets 3 and 7, and its first colour byte is the nearest-even rounding 76 of `0.3*255 = 76.5`. -/
theorem claim_C4_witness :
    (getRGBABytesStatic ⟨2, 1, [[3/10, 7], [1/4, -2], [1, 5]]⟩).getD
        (4 * 0 + 3) 0 = 255 ∧
    (getRGBABytesStatic ⟨2, 1, [[3/10, 7], [1/4, -2], [1, 5]]⟩).getD
        (4 * 1 + 3) 0 = 255 ∧
    (getRGBABytesStatic ⟨2, 1, [[3/10, 7], [1/4, -2], [1, 5]]⟩).getD
        (4 * 0 + 0) 0 = 76 := by
  have h0 := claim_C4_default_alpha ⟨2, 1, [[3/10, 7], [1/4, -2], [1, 5]]⟩
    (by norm_num [Image.numChannels]) 0 (by norm_num)
  have h1 := claim_C4_default_alpha ⟨2, 1, [[3/10, 7], [1/4, -2], [1, 5]]⟩
    (by norm_num [Image.numChannels]) 1 (by norm_num)
  refine ⟨h0.1, h1.1, ?_⟩
  have hb := h0.2 0 (by norm_num) (by norm_num [sampleAt])
    (by norm_num [sampleAt])
  exact hb.trans (by norm_num [sampleAt, lrintQ, Int.fract]; decide)

/-- Unfolding of `RGBAImage::RGBAImage(Image*)` when the source has fewer
than 4 channels: zero-initialized buffers, copy loop, then the alpha-fill
loop on channel 3. -/
lemma fromImage_eq_of_lt (inImage : Image) (junk : ℚ)
    (h : inImage.numChannels < 4) :
    RGBAImage.fromImage inImage junk =
      ⟨inImage.width, inImage.height,
        ((List.range inImage.numChannels).foldl
            (fun chs c => chs.set c (inImage.getChannel c))
            (List.replicate 4
              (List.replicate (inImage.width * inImage.height) 0))).set 3
          ((List.range (inImage.width * inImage.height)).foldl
            (fun alpha i => alpha.set i 1)
            (((List.range inImage.numChannels).foldl
                (fun chs c => chs.set c (inImage.getChannel c))
                (List.replicate 4
                  (List.replicate (inImage.width * inImage.height) 0))).getD
              3 []))⟩ := by
  have h4 : (inImage.numChannels < 4) = True := eq_true h
  simp only [RGBAImage.fromImage, h4, if_true]

/-- Unfolding of `RGBAImage::RGBAImage(Image*)` when the source has at least
4 channels: buffers left uninitialized (`junk`), 4 channels copied, no
alpha fill. -/
lemma fromImage_eq_of_ge (inImage : Image) (junk : ℚ)
    (h : ¬ inImage.numChannels < 4) :
    RGBAImage.fromImage inImage junk =
      ⟨inImage.width, inImage.height,
        (List.range 4).foldl
          (fun chs c => chs.set c (inImage.getChannel c))
          (List.replicate 4
            (List.replicate (inImage.width * inImage.height) junk))⟩ := by
  have h4 : (inImage.numChannels < 4) = False := eq_false h
  have h44 : (4 < 4) = False := by decide
  simp only [RGBAImage.fromImage, h4, if_false, h44]

lemma getD_replicate {α : Type} {m : Nat} (l : α) {j : Nat} (h : j < m)
    (d : α) : (List.replicate m l).getD j d = l := by
  rw [List.getD_eq_getElem _ _ (by simpa using h)]
  simp

lemma channels_mk (w h : Nat) (chs : List (List ℚ)) :
    (Image.mk w h chs).channels = chs := rfl

lemma numChannels_mk (w h : Nat) (chs : List (List ℚ)) :
    (Image.mk w h chs).numChannels = chs.length := rfl

/-- Claim C5: constructing a 4-channel RGBA image from a source of any
channel count copies `min(4, numChannels)` channels verbatim; if the source
has fewer than 4 channels, every pixel of channel 3 is set to 1.0 and the
uncopied colour channels are all 0.0; if the source has 4 or more channels,
channel 3 is copied verbatim and channels beyond index 3 are dropped (the
result always has exactly 4 channels).  The result never depends on the
contents `junk` of the not-zero-initialized buffers. -/
theorem claim_C5_rgba_from_image (inImage : Image) (junk : ℚ) :
    (RGBAImage.fromImage inImage junk).numChannels = 4 ∧
    (RGBAImage.fromImage inImage junk).width = inImage.width ∧
    (RGBAImage.fromImage inImage junk).height = inImage.height ∧
    (∀ c, c < min 4 inImage.numChannels →
      (RGBAImage.fromImage inImage junk).channels.getD c [] =
        inImage.channels.getD c []) ∧
    (inImage.numChannels < 4 →
      (∀ p, p < inImage.width * inImage.height →
        sampleAt (RGBAImage.fromImage inImage junk).channels 3 p = 1) ∧
      (∀ c, inImage.numChannels ≤ c → c < 3 →
        (RGBAImage.fromImage inImage junk).channels.getD c [] =
          List.replicate (inImage.width * inImage.height) 0)) ∧
    (4 ≤ inImage.numChannels →
      (RGBAImage.fromImage inImage junk).channels.getD 3 [] =
        inImage.channels.getD 3 []) := by
  by_cases hlt : inImage.numChannels < 4
  · rw [fromImage_eq_of_lt inImage junk hlt]
    have hcl : ((List.range inImage.numChannels).foldl
        (fun chs c => chs.set c (inImage.getChannel c))
        (List.replicate 4
          (List.replicate (inImage.width * inImage.height) 0))).length = 4 := by
      rw [setFold_length]; simp
    have hcget : ∀ j, ((List.range inImage.numChannels).foldl
        (fun chs c => chs.set c (inImage.getChannel c))
        (List.replicate 4
          (List.replicate (inImage.width * inImage.height) 0))).getD j [] =
        if j < inImage.numChannels then inImage.getChannel j
        else (List.replicate 4
          (List.replicate (inImage.width * inImage.height) (0:ℚ))).getD j [] :=
      setFold_getD _ inImage.numChannels _ (by simp; omega)
    have hc3 : ((List.range inImage.numChannels).foldl
        (fun chs c => chs.set c (inImage.getChannel c))
        (List.replicate 4
          (List.replicate (inImage.width * inImage.height) 0))).getD 3 [] =
        List.replicate (inImage.width * inImage.height) (0:ℚ) := by
      rw [hcget 3, if_neg (by omega), getD_replicate _ (by omega)]
    refine ⟨?_, rfl, rfl, ?_, ?_, ?_⟩
    · rw [numChannels_mk, List.length_set, hcl]
    · intro c hc
      have hcle : c < inImage.numChannels := by
        have := Nat.min_le_right 4 inImage.numChannels
        omega
      rw [channels_mk, getD_set_ne _ _ _ (by omega : c ≠ 3), hcget c,
        if_pos hcle]
      rfl
    · intro _
      constructor
      · intro p hp
        unfold sampleAt
        rw [channels_mk, getD_set_self _ _ _ _ (by rw [hcl]; omega), hc3]
        rw [fillFold_getD _ _ p hp (by simp; omega)]
      · intro c hc1 hc2
        rw [channels_mk, getD_set_ne _ _ _ (by omega : c ≠ 3), hcget c,
          if_neg (by omega), getD_replicate _ (by omega)]
    · intro habs; omega
  · rw [fromImage_eq_of_ge inImage junk hlt]
    have hget : ∀ j, ((List.range 4).foldl
        (fun chs c => chs.set c (inImage.getChannel c))
        (List.replicate 4
          (List.replicate (inImage.width * inImage.height) junk))).getD j [] =
        if j < 4 then inImage.getChannel j
        else (List.replicate 4
          (List.replicate (inImage.width * inImage.height) junk)).getD j [] :=
      setFold_getD _ 4 _ (by simp)
    refine ⟨?_, rfl, rfl, ?_, ?_, ?_⟩
    · rw [numChannels_mk, setFold_length]; simp
    · intro c hc
      have hc4 : c < 4 := by
        have := Nat.min_le_left 4 inImage.numChannels
        omega
      rw [channels_mk, hget c, if_pos hc4]
      rfl
    · intro habs; omega
    · intro _
      rw [channels_mk, hget 3, if_pos (by omega)]
      rfl

/-- Witness for C5: from a 1-channel source the constructor copies channel
0, zeroes channel 1, and sets alpha to 1.0; from a 5-channel source it keeps
exactly 4 channels and copies the source's channel 3 verbatim. -/
theorem claim_C5_witness :
    sampleAt (RGBAImage.fromImage ⟨1, 1, [[1/2]]⟩ 7).channels 3 0 = 1 ∧
    (RGBAImage.fromImage ⟨1, 1, [[1/2]]⟩ 7).channels.getD 0 [] = [1/2] ∧
    (RGBAImage.fromImage ⟨1, 1, [[1/2]]⟩ 7).channels.getD 1 [] = [0] ∧
    (RGBAImage.fromImage ⟨1, 1, [[1], [2], [3], [4], [5]]⟩ 7).numChannels =
      4 ∧
    (RGBAImage.fromImage ⟨1, 1, [[1], [2], [3], [4], [5]]⟩ 7).channels.getD
      3 [] = [4] := by
  have h := claim_C5_rgba_from_image ⟨1, 1, [[1/2]]⟩ 7
  have h2 := claim_C5_rgba_from_image ⟨1, 1, [[1], [2], [3], [4], [5]]⟩ 7
  refine ⟨(h.2.2.2.2.1 (by norm_num [Image.numChannels])).1 0 (by norm_num),
    (h.2.2.2.1 0 (by norm_num [Image.numChannels])).trans (by norm_num),
    ((h.2.2.2.2.1 (by norm_num [Image.numChannels])).2 1
      (by norm_num [Image.numChannels]) (by norm_num)).trans (by norm_num),
    h2.1,
    (h2.2.2.2.2.2 (by norm_num [Image.numChannels])).trans (by norm_num)⟩

/-- Claim C7: applying a channel filter through the all-channels entry point
`RGBAImage::filter(ChannelFilter*)` on a 4-channel image applies it to
channels 0, 1 and 2 and leaves channel 3 (alpha) untouched. -/
theorem claim_C7_filter_skips_alpha (img : Image) (F : List ℚ → List ℚ)
    (h4 : img.numChannels = 4) :
    (RGBAImage.filterAll img F).channels.getD 3 [] =
      img.channels.getD 3 [] ∧
    (∀ k, k < 3 → (RGBAImage.filterAll img F).channels.getD k [] =
      F (img.channels.getD k [])) ∧
    (RGBAImage.filterAll img F).width = img.width ∧
    (RGBAImage.filterAll img F).height = img.height := by
  rcases img with ⟨wi, hi, chs⟩
  have hl : chs.length = 4 := by simpa [Image.numChannels] using h4
  obtain ⟨a, b, c, d, rfl⟩ := exists_four_of_length_eq hl
  have key : (RGBAImage.filterAll ⟨wi, hi, [a, b, c, d]⟩ F).channels =
      [F a, F b, F c, d] := rfl
  refine ⟨?_, ?_, rfl, rfl⟩
  · rw [key]; rfl
  · intro k hk
    rw [key]
    interval_cases k <;> rfl

/-- Witness for C7: adding 1.0 to every sample through the all-channels
entry point on a 1-by-1 four-channel image changes channels 0..2 but leaves
the alpha channel `[4]` untouched. -/
theorem claim_C7_witness :
    (RGBAImage.filterAll ⟨1, 1, [[1], [2], [3], [4]]⟩
        (List.map (fun s => s + 1))).channels.getD 3 [] = [4] ∧
    (RGBAImage.filterAll ⟨1, 1, [[1], [2], [3], [4]]⟩
        (List.map (fun s => s + 1))).channels.getD 0 [] = [2] := by
  have h := claim_C7_filter_skips_alpha ⟨1, 1, [[1], [2], [3], [4]]⟩
    (List.map (fun s => s + 1)) (by norm_num [Image.numChannels])
  exact ⟨h.1.trans (by norm_num),
    (h.2.1 0 (by norm_num)).trans (by norm_num)⟩
